import Mathlib

/-!
Shallow embedding of benchtop's reth backend (src/benchtop/src/reth.rs):
the overlay/persistent read-through transaction, the trie update merger
(UpdateWriter::write_trie_updates), the hashed-state writer
(UpdateWriter::write_hashed_state) and the commit-and-prove pipeline
(RethDB::execute).  Machine integers (U256, u64 balances, 32-byte hashed
keys, nibbles) are modelled as Nat; hash maps and sets are modelled as
association lists with first-match lookup; the keccak256 hash is an
abstract parameter.
-/

namespace RethBench

/-- A trie node key: a nibble path (reth's Nibbles), ordered lexicographically. -/
abbrev TrieKey := List Nat

/-- An opaque encoded trie node body. -/
abbrev TrieNode := Nat

/-- The account-node part of reth's TrieUpdates: updated nodes
(account_nodes, a hash map modelled as an association list) and removed
keys (removed_nodes, a hash set modelled as a list).  write_trie_updates
in reth.rs only ever touches account nodes. -/
structure TrieUpdates where
  updated : List (TrieKey × TrieNode)
  removed : List TrieKey

/-- The persistent AccountsTrie table, as a map from node key to node. -/
abbrev TrieStore := TrieKey → Option TrieNode

/-- Insert x just before the first element it compares at-or-below
(the insertion step of an insertion sort). -/
def sortedInsert {α : Type} (le : α → α → Bool) (x : α) : List α → List α
  | [] => [x]
  | y :: ys => if le x y then x :: y :: ys else y :: sortedInsert le x ys

/-- Sort a list by the boolean comparison le.  Models Rust's
sort_unstable_by / sorted_by_key; every use in this file compares keys
that are pairwise distinct in the relevant lists, so stability never
matters. -/
def sortBy {α : Type} (le : α → α → Bool) : List α → List α
  | [] => []
  | x :: xs => sortedInsert le x (sortBy le xs)

lemma sortedInsert_perm {α : Type} (le : α → α → Bool) (x : α) :
    ∀ l : List α, List.Perm (sortedInsert le x l) (x :: l) := by
  intro l
  induction l with
  | nil => exact List.Perm.refl _
  | cons y ys ih =>
    unfold sortedInsert
    by_cases hxy : le x y
    · simp [hxy]
    · simp only [hxy, if_neg, Bool.false_eq_true, not_false_eq_true]
      exact (ih.cons y).trans (List.Perm.swap x y ys)

lemma sortBy_perm {α : Type} (le : α → α → Bool) :
    ∀ l : List α, List.Perm (sortBy le l) l := by
  intro l
  induction l with
  | nil => exact List.Perm.refl _
  | cons x xs ih =>
    exact (sortedInsert_perm le x (sortBy le xs)).trans (ih.cons x)

/-- Lexicographic comparison of nibble paths, the Ord instance reth's
Nibbles keys are sorted by (account_updates.sort_unstable_by on a.0.cmp(b.0)). -/
def keyLe : TrieKey → TrieKey → Bool
  | [], _ => true
  | _ :: _, [] => false
  | a :: as, b :: bs => if a < b then true else if b < a then false else keyLe as bs

/-- HashMap::contains_key on the updated account nodes. -/
def containsKey (l : List (TrieKey × TrieNode)) (k : TrieKey) : Bool :=
  l.any (fun e => decide (e.1 = k))

/-- One pending write in the merged update list: a key together with
Some(node) for an upsert or None for a removal. -/
abbrev MergeEntry := TrieKey × Option TrieNode

/-- Sort merged entries by trie key ascending (sort_unstable_by key compare). -/
def sortEntries (l : List MergeEntry) : List MergeEntry :=
  sortBy (fun a b => keyLe a.1 b.1) l

/-- Applying one entry of the merged list to the AccountsTrie table
(reth.rs lines 44-59): an update with a non-empty key path is upserted,
an update with an empty path is skipped, a removal deletes the node at
that exact key when present (and is a no-op when absent). -/
def applyEntry (st : TrieStore) (e : MergeEntry) : TrieStore :=
  match e.2 with
  | some n => if e.1 = [] then st else fun k => if k = e.1 then some n else st k
  | none => fun k => if k = e.1 then none else st k

/-- The loop body of write_trie_updates: the num_entries counter is
incremented for every upserted update (non-empty path) and for every
removal entry (counted even when nothing was present to delete), and the
cursor mutation of applyEntry is performed. -/
def mergeStep (p : Nat × TrieStore) (e : MergeEntry) : Nat × TrieStore :=
  match e.2 with
  | some n => if e.1 = [] then p else (p.1 + 1, fun k => if k = e.1 then some n else p.2 k)
  | none => (p.1 + 1, fun k => if k = e.1 then none else p.2 k)

/-- UpdateWriter::write_trie_updates (reth.rs lines 21-62): on an empty
update set return 0 immediately; otherwise build the removal candidates
(removed keys not also updated, paired with None), append all updated
entries (paired with Some node), sort by key ascending, and fold the
cursor loop over the sorted list.  Returns the entry count and the
resulting AccountsTrie table. -/
def write_trie_updates (tu : TrieUpdates) (st : TrieStore) : Nat × TrieStore :=
  if tu.updated = [] ∧ tu.removed = [] then (0, st)
  else
    let account_updates : List MergeEntry :=
      (tu.removed.filter (fun n => !(containsKey tu.updated n))).map
          (fun n => (n, (none : Option TrieNode)))
        ++ tu.updated.map (fun e => (e.1, some e.2))
    (sortEntries account_updates).foldl mergeStep (0, st)

/-- The Trie Update Merger as the specification words it: the removal
candidate list is every removed key not also present in updated; it is
concatenated with every updated entry, the combined list is sorted by
TrieNodeKey ascending, and the entries are applied to the trie store in
that order (upsert for updates, delete-if-present for removals). -/
def mergerSpecApply (tu : TrieUpdates) (st : TrieStore) : TrieStore :=
  let removalCandidates : List MergeEntry :=
    (tu.removed.filter (fun n => !(containsKey tu.updated n))).map
      (fun n => (n, (none : Option TrieNode)))
  let combined := removalCandidates ++ tu.updated.map (fun e => (e.1, some e.2))
  (sortEntries combined).foldl applyEntry st

/-! Fold lemmas about the merge loop. -/

lemma mergeStep_snd (p : Nat × TrieStore) (e : MergeEntry) :
    (mergeStep p e).2 = applyEntry p.2 e := by
  rcases e with ⟨k, ov⟩
  cases ov with
  | some n =>
    by_cases hk : k = [] <;> simp [mergeStep, applyEntry, hk]
  | none => rfl

/-- The contribution of one merged entry to the num_entries counter. -/
def entryWeight (e : MergeEntry) : Nat :=
  match e.2 with
  | some _ => if e.1 = [] then 0 else 1
  | none => 1

lemma mergeStep_fst (p : Nat × TrieStore) (e : MergeEntry) :
    (mergeStep p e).1 = p.1 + entryWeight e := by
  rcases e with ⟨k, ov⟩
  cases ov with
  | some n => by_cases hk : k = [] <;> simp [mergeStep, entryWeight, hk]
  | none => rfl

lemma foldl_mergeStep_snd (l : List MergeEntry) :
    ∀ p : Nat × TrieStore, (l.foldl mergeStep p).2 = l.foldl applyEntry p.2 := by
  induction l with
  | nil => intro p; rfl
  | cons e l ih =>
    intro p
    simp only [List.foldl_cons]
    rw [ih, mergeStep_snd]

lemma foldl_mergeStep_fst (l : List MergeEntry) :
    ∀ p : Nat × TrieStore, (l.foldl mergeStep p).1 = p.1 + (l.map entryWeight).sum := by
  induction l with
  | nil => intro p; simp
  | cons e l ih =>
    intro p
    simp only [List.foldl_cons, List.map_cons, List.sum_cons]
    rw [ih, mergeStep_fst]
    omega

lemma applyEntry_ne (st : TrieStore) (e : MergeEntry) (k : TrieKey) (h : k ≠ e.1) :
    applyEntry st e k = st k := by
  rcases e with ⟨j, ov⟩
  simp only at h
  cases ov with
  | some n =>
    simp only [applyEntry]
    split
    · rfl
    · simp [h]
  | none => simp [applyEntry, h]

lemma foldl_applyEntry_no_key (k : TrieKey) :
    ∀ (l : List MergeEntry) (st : TrieStore), (∀ e ∈ l, e.1 ≠ k) →
      (l.foldl applyEntry st) k = st k := by
  intro l
  induction l with
  | nil => intro st _; rfl
  | cons e l ih =>
    intro st h
    simp only [List.foldl_cons]
    rw [ih _ (fun e' he' => h e' (List.mem_cons_of_mem e he'))]
    exact applyEntry_ne st e k (fun hk => h e (List.mem_cons_self e l) hk.symm)

/-- What a key ends up mapped to after its (unique) entry is applied:
an upsert yields the node for a non-empty path and leaves the prior value
d for the empty path; a removal yields absence. -/
def entryTarget (ov : Option TrieNode) (k : TrieKey) (d : Option TrieNode) : Option TrieNode :=
  match ov with
  | some n => if k = [] then d else some n
  | none => none

lemma entryTarget_apply_self (st : TrieStore) (k : TrieKey) (ov : Option TrieNode) :
    entryTarget ov k (applyEntry st (k, ov) k) = entryTarget ov k (st k) := by
  cases ov with
  | some n =>
    by_cases hk : k = [] <;> simp [entryTarget, applyEntry, hk]
  | none => simp [entryTarget]

lemma foldl_applyEntry_unique (k : TrieKey) (ov : Option TrieNode) :
    ∀ (l : List MergeEntry) (st : TrieStore), (k, ov) ∈ l →
      (∀ e ∈ l, e.1 = k → e.2 = ov) →
      (l.foldl applyEntry st) k = entryTarget ov k (st k) := by
  intro l
  induction l with
  | nil => intro st hm _; cases hm
  | cons e l ih =>
    intro st hm hk
    simp only [List.foldl_cons]
    by_cases hek : e.1 = k
    · have he2 : e.2 = ov := hk e (List.mem_cons_self e l) hek
      have hes : e = (k, ov) := by
        rcases e with ⟨j, ovj⟩
        simp only at hek he2
        rw [hek, he2]
      subst hes
      by_cases hrest : ∃ ov2, (k, ov2) ∈ l
      · rcases hrest with ⟨ov2, hov2⟩
        have hov2e : ov2 = ov := by
          have := hk (k, ov2) (List.mem_cons_of_mem _ hov2) rfl
          simpa using this
        subst hov2e
        rw [ih (applyEntry st (k, ov2)) hov2
            (fun e' he' h1 => hk e' (List.mem_cons_of_mem _ he') h1)]
        exact entryTarget_apply_self st k ov2
      · have hnone : ∀ e' ∈ l, e'.1 ≠ k := by
          intro e' he' h1
          rcases e' with ⟨j, ovj⟩
          simp only at h1
          subst h1
          exact hrest ⟨ovj, he'⟩
        rw [foldl_applyEntry_no_key k l _ hnone]
        have : applyEntry st (k, ov) k = entryTarget ov k (st k) := by
          cases ov with
          | some n => by_cases hk0 : k = [] <;> simp [applyEntry, entryTarget, hk0]
          | none => simp [applyEntry, entryTarget]
        exact this
    · have hm' : (k, ov) ∈ l := by
        rcases List.mem_cons.mp hm with h | h
        · exfalso; apply hek; rw [← h]
        · exact h
      rw [ih (applyEntry st e) hm'
          (fun e' he' h1 => hk e' (List.mem_cons_of_mem _ he') h1)]
      rw [applyEntry_ne st e k (fun h1 => hek h1.symm)]

lemma containsKey_iff (l : List (TrieKey × TrieNode)) (k : TrieKey) :
    containsKey l k = true ↔ ∃ n, (k, n) ∈ l := by
  simp only [containsKey, List.any_eq_true, decide_eq_true_eq]
  constructor
  · rintro ⟨⟨j, n⟩, hmem, hj⟩
    subst hj
    exact ⟨n, hmem⟩
  · rintro ⟨n, hmem⟩
    exact ⟨(k, n), hmem, rfl⟩

lemma nodup_key_eq {l : List (TrieKey × TrieNode)}
    (hnd : (l.map Prod.fst).Nodup)
    {k : TrieKey} {n m : TrieNode} (h1 : (k, n) ∈ l) (h2 : (k, m) ∈ l) : n = m := by
  induction l with
  | nil => cases h1
  | cons e l ih =>
    rw [List.map_cons, List.nodup_cons] at hnd
    obtain ⟨hni, hnd'⟩ := hnd
    rcases List.mem_cons.mp h1 with h1h | h1t
    · rcases List.mem_cons.mp h2 with h2h | h2t
      · rw [← h1h] at h2h
        injection h2h with _ hnm
        exact hnm.symm
      · exfalso
        apply hni
        have hek : e.1 = k := by rw [← h1h]
        rw [hek]
        exact List.mem_map_of_mem Prod.fst h2t
    · rcases List.mem_cons.mp h2 with h2h | h2t
      · exfalso
        apply hni
        have hek : e.1 = k := by rw [← h2h]
        rw [hek]
        exact List.mem_map_of_mem Prod.fst h1t
      · exact ih hnd' h1t h2t

lemma write_trie_updates_not_empty (tu : TrieUpdates) (st : TrieStore)
    (h : ¬(tu.updated = [] ∧ tu.removed = [])) :
    write_trie_updates tu st
      = (sortEntries
          ((tu.removed.filter (fun n => !(containsKey tu.updated n))).map
              (fun n => (n, (none : Option TrieNode)))
            ++ tu.updated.map (fun e => (e.1, some e.2)))).foldl mergeStep (0, st) := by
  unfold write_trie_updates
  rw [if_neg h]

/-- Where each entry of the combined update list comes from: either a
removal candidate (a removed key not also updated, marked None) or an
updated entry (marked Some node). -/
lemma mergedEntry_key (tu : TrieUpdates) (e : MergeEntry)
    (he : e ∈ (tu.removed.filter (fun n => !(containsKey tu.updated n))).map
            (fun n => (n, (none : Option TrieNode)))
          ++ tu.updated.map (fun u => (u.1, some u.2))) :
    (e.2 = none ∧ e.1 ∈ tu.removed ∧ containsKey tu.updated e.1 = false)
    ∨ (∃ m, e.2 = some m ∧ (e.1, m) ∈ tu.updated) := by
  rcases List.mem_append.mp he with hL | hR
  · rcases List.mem_map.mp hL with ⟨j, hj, hje⟩
    rcases List.mem_filter.mp hj with ⟨hjr, hjp⟩
    left
    subst hje
    refine ⟨rfl, hjr, ?_⟩
    simpa using hjp
  · rcases List.mem_map.mp hR with ⟨u, hu, hue⟩
    right
    subst hue
    exact ⟨u.2, rfl, by simpa using hu⟩

/-- C5: write_trie_updates merges by building the removal candidate list
(each removed key not also present in updated), concatenating every
updated entry, sorting the combined list by TrieNodeKey ascending, and
applying the entries in that sorted order (upsert for updates,
delete-if-present for removals): its resulting store is exactly that
sorted-merge pipeline; the early return for an empty update set and the
interleaved entry counter do not change the applied result. -/
theorem write_trie_updates_refines_sorted_merge (tu : TrieUpdates) (st : TrieStore) :
    (write_trie_updates tu st).2 = mergerSpecApply tu st := by
  unfold write_trie_updates mergerSpecApply
  by_cases h : tu.updated = [] ∧ tu.removed = []
  · rw [if_pos h]
    obtain ⟨h1, h2⟩ := h
    rw [h1, h2]
    rfl
  · rw [if_neg h]
    exact foldl_mergeStep_snd _ _

lemma weightSum_removals (rl : List TrieKey) :
    ((rl.map (fun n => (n, (none : Option TrieNode)))).map entryWeight).sum = rl.length := by
  induction rl with
  | nil => rfl
  | cons a l ih =>
    simp only [List.map_cons, List.sum_cons, List.length_cons]
    rw [ih]
    show 1 + l.length = l.length + 1
    omega

lemma weightSum_updates (ul : List (TrieKey × TrieNode)) :
    ((ul.map (fun e => (e.1, some e.2))).map entryWeight).sum
      = ul.countP (fun e => !(e.1.isEmpty)) := by
  induction ul with
  | nil => rfl
  | cons a l ih =>
    simp only [List.map_cons, List.sum_cons, List.countP_cons, ih]
    rcases a with ⟨k, n⟩
    cases k with
    | nil => simp [entryWeight]
    | cons b bs => simp [entryWeight]; omega

/-- C9: the value returned by write_trie_updates is the number of entries
actually written, deletions included: one per updated entry with a
non-empty key path plus one per removal candidate (a removed key not also
updated, counted even when nothing was present to delete); an empty
TrieUpdateSet yields zero. -/
theorem write_trie_updates_entry_count (tu : TrieUpdates) (st : TrieStore) :
    (write_trie_updates tu st).1
      = tu.updated.countP (fun e => !(e.1.isEmpty))
        + (tu.removed.filter (fun n => !(containsKey tu.updated n))).length
    ∧ (write_trie_updates ⟨[], []⟩ st).1 = 0 := by
  constructor
  · by_cases h : tu.updated = [] ∧ tu.removed = []
    · obtain ⟨h1, h2⟩ := h
      unfold write_trie_updates
      rw [if_pos ⟨h1, h2⟩, h1, h2]
      rfl
    · rw [write_trie_updates_not_empty tu st h, foldl_mergeStep_fst]
      have hperm :=
        (sortBy_perm (fun (a b : MergeEntry) => keyLe a.1 b.1)
          ((tu.removed.filter (fun n => !(containsKey tu.updated n))).map
              (fun n => (n, (none : Option TrieNode)))
            ++ tu.updated.map (fun e => (e.1, some e.2)))).map entryWeight
      rw [show sortEntries _ = sortBy (fun (a b : MergeEntry) => keyLe a.1 b.1) _ from rfl]
      rw [hperm.sum_eq, List.map_append, List.sum_append,
        weightSum_removals, weightSum_updates]
      omega
  · rfl

/-- C2 counterexample data: the empty nibble path is both updated (to
node 1) and removed, while the store already holds node 7 at the empty
path. -/
def tuPrecCex : TrieUpdates := ⟨[([], 1)], [[]]⟩

/-- C2 counterexample store. -/
def stPrecCex : TrieStore := fun k => if k = [] then some 7 else none

/-- C2 is false as stated at the empty nibble path: the empty path is
present in both updated and removed, yet after the merger the store still
holds the old node 7 — the node is neither upserted with the updated
value 1 nor deleted. -/
theorem trie_update_precedence_empty_path_cex :
    (write_trie_updates tuPrecCex stPrecCex).2 [] = some 7 ∧ (7 : TrieNode) ≠ 1 := by
  constructor
  · rfl
  · decide

/-- C2 (amended): for every TrieNodeKey with a non-empty nibble path that
is present in both updated and removed, the merger leaves the node
upserted with the updated value, never deleted; a key with an empty path
present in both is neither upserted nor deleted. -/
theorem write_trie_updates_update_precedence (tu : TrieUpdates) (st : TrieStore)
    (k : TrieKey) (n : TrieNode)
    (hnd : (tu.updated.map Prod.fst).Nodup)
    (hup : (k, n) ∈ tu.updated) (_hrem : k ∈ tu.removed) (hk : k ≠ []) :
    (write_trie_updates tu st).2 k = some n := by
  have hne : ¬(tu.updated = [] ∧ tu.removed = []) := by
    rintro ⟨h1, _⟩
    rw [h1] at hup
    cases hup
  rw [write_trie_updates_not_empty tu st hne, foldl_mergeStep_snd]
  have hperm := sortBy_perm (fun (a b : MergeEntry) => keyLe a.1 b.1)
    ((tu.removed.filter (fun n => !(containsKey tu.updated n))).map
        (fun n => (n, (none : Option TrieNode)))
      ++ tu.updated.map (fun e => (e.1, some e.2)))
  have hm : (k, some n) ∈ sortEntries
      ((tu.removed.filter (fun n => !(containsKey tu.updated n))).map
          (fun n => (n, (none : Option TrieNode)))
        ++ tu.updated.map (fun e => (e.1, some e.2))) :=
    hperm.mem_iff.mpr (List.mem_append_right _ (List.mem_map.mpr ⟨(k, n), hup, rfl⟩))
  have hkk : ∀ e ∈ sortEntries
      ((tu.removed.filter (fun n => !(containsKey tu.updated n))).map
          (fun n => (n, (none : Option TrieNode)))
        ++ tu.updated.map (fun e => (e.1, some e.2))), e.1 = k → e.2 = some n := by
    intro e he h1
    rcases mergedEntry_key tu e (hperm.mem_iff.mp he) with ⟨_, _, h4⟩ | ⟨m, h2, h3⟩
    · exfalso
      rw [h1, (containsKey_iff _ _).mpr ⟨n, hup⟩] at h4
      cases h4
    · rw [h1] at h3
      rw [h2, nodup_key_eq hnd h3 hup]
  rw [foldl_applyEntry_unique k (some n) _ st hm hkk]
  simp [entryTarget, hk]

/-- Witness for the amended C2 theorem at a concrete input. -/
theorem write_trie_updates_update_precedence_witness :
    (write_trie_updates ⟨[([0], 5)], [[0]]⟩ (fun _ => none)).2 [0] = some 5 :=
  write_trie_updates_update_precedence ⟨[([0], 5)], [[0]]⟩ (fun _ => none) [0] 5
    (by decide) (by decide) (by decide) (by decide)

/-- C8: an update entry whose key has an empty nibble path is never
upserted (the store at the empty path is left unchanged), while a removal
entry at the empty path still deletes the node there if one is present
(the store at the empty path ends up absent). -/
theorem write_trie_updates_empty_path (tu : TrieUpdates) (st : TrieStore)
    (hnd : (tu.updated.map Prod.fst).Nodup) :
    (∀ n : TrieNode, ([], n) ∈ tu.updated → (write_trie_updates tu st).2 [] = st [])
    ∧ ([] ∈ tu.removed → containsKey tu.updated [] = false →
        (write_trie_updates tu st).2 [] = none) := by
  constructor
  · intro n hup
    have hne : ¬(tu.updated = [] ∧ tu.removed = []) := by
      rintro ⟨h1, _⟩
      rw [h1] at hup
      cases hup
    rw [write_trie_updates_not_empty tu st hne, foldl_mergeStep_snd]
    have hperm := sortBy_perm (fun (a b : MergeEntry) => keyLe a.1 b.1)
      ((tu.removed.filter (fun n => !(containsKey tu.updated n))).map
          (fun n => (n, (none : Option TrieNode)))
        ++ tu.updated.map (fun e => (e.1, some e.2)))
    have hm : (([] : TrieKey), some n) ∈ sortEntries
        ((tu.removed.filter (fun n => !(containsKey tu.updated n))).map
            (fun n => (n, (none : Option TrieNode)))
          ++ tu.updated.map (fun e => (e.1, some e.2))) :=
      hperm.mem_iff.mpr (List.mem_append_right _ (List.mem_map.mpr ⟨([], n), hup, rfl⟩))
    have hkk : ∀ e ∈ sortEntries
        ((tu.removed.filter (fun n => !(containsKey tu.updated n))).map
            (fun n => (n, (none : Option TrieNode)))
          ++ tu.updated.map (fun e => (e.1, some e.2))), e.1 = [] → e.2 = some n := by
      intro e he h1
      rcases mergedEntry_key tu e (hperm.mem_iff.mp he) with ⟨_, _, h4⟩ | ⟨m, h2, h3⟩
      · exfalso
        rw [h1, (containsKey_iff _ _).mpr ⟨n, hup⟩] at h4
        cases h4
      · rw [h1] at h3
        rw [h2, nodup_key_eq hnd h3 hup]
    rw [foldl_applyEntry_unique [] (some n) _ st hm hkk]
    rfl
  · intro hrem hnc
    have hne : ¬(tu.updated = [] ∧ tu.removed = []) := by
      rintro ⟨_, h2⟩
      rw [h2] at hrem
      cases hrem
    rw [write_trie_updates_not_empty tu st hne, foldl_mergeStep_snd]
    have hperm := sortBy_perm (fun (a b : MergeEntry) => keyLe a.1 b.1)
      ((tu.removed.filter (fun n => !(containsKey tu.updated n))).map
          (fun n => (n, (none : Option TrieNode)))
        ++ tu.updated.map (fun e => (e.1, some e.2)))
    have hm : (([] : TrieKey), (none : Option TrieNode)) ∈ sortEntries
        ((tu.removed.filter (fun n => !(containsKey tu.updated n))).map
            (fun n => (n, (none : Option TrieNode)))
          ++ tu.updated.map (fun e => (e.1, some e.2))) := by
      refine hperm.mem_iff.mpr (List.mem_append_left _ (List.mem_map.mpr ⟨[], ?_, rfl⟩))
      refine List.mem_filter.mpr ⟨hrem, ?_⟩
      rw [hnc]
      rfl
    have hkk : ∀ e ∈ sortEntries
        ((tu.removed.filter (fun n => !(containsKey tu.updated n))).map
            (fun n => (n, (none : Option TrieNode)))
          ++ tu.updated.map (fun e => (e.1, some e.2))), e.1 = [] → e.2 = none := by
      intro e he h1
      rcases mergedEntry_key tu e (hperm.mem_iff.mp he) with ⟨h2, _, _⟩ | ⟨m, _, h3⟩
      · exact h2
      · exfalso
        rw [h1] at h3
        rw [(containsKey_iff _ _).mpr ⟨m, h3⟩] at hnc
        cases hnc
    rw [foldl_applyEntry_unique [] none _ st hm hkk]
    rfl

/-- Witness for the C8 theorem at concrete inputs: an empty-path update
leaves the stored node 9 untouched, and an empty-path removal deletes it. -/
theorem write_trie_updates_empty_path_witness :
    (write_trie_updates ⟨[([], 3)], []⟩
      (fun k => if k = [] then some 9 else none)).2 [] = some 9
    ∧ (write_trie_updates ⟨[], [[]]⟩
      (fun k => if k = [] then some 9 else none)).2 [] = none :=
  ⟨(write_trie_updates_empty_path ⟨[([], 3)], []⟩
      (fun k => if k = [] then some 9 else none) (by decide)).1 3 (by decide),
   (write_trie_updates_empty_path ⟨[], [[]]⟩
      (fun k => if k = [] then some 9 else none) (by decide)).2 (by decide) (by decide)⟩

/-! The hashed-state writer (UpdateWriter::write_hashed_state). -/

/-- An account record (reth Account): nonce, optional code hash, balance.
The balance (a U256) is modelled as Nat. -/
structure Account where
  nonce : Nat
  bytecode_hash : Option Nat
  balance : Nat
deriving DecidableEq

/-- The pending storage delta of one account in HashedPostStateSorted:
the wiped flag and the slot-level writes (hashed slot, value; a zero
value encodes a pending deletion). -/
structure HashedStorage where
  wiped : Bool
  slots : List (Nat × Nat)
deriving DecidableEq

/-- The sorted hashed post state: account deltas (None = tombstone) and
per-account storage deltas. -/
structure HashedPostStateSorted where
  accounts : List (Nat × Option Account)
  storages : List (Nat × HashedStorage)

/-- The persistent HashedAccounts table. -/
abbrev AccountsTable := Nat → Option Account

/-- The persistent dup-sorted HashedStorages table: for each hashed
account address, the list of (hashed slot, value) entries.  The writer
deletes a slot's entry before upserting it, so a well-formed table holds
at most one entry per (address, slot). -/
abbrev StorageTable := Nat → List (Nat × Nat)

/-- The slot keys of an account's entry list. -/
abbrev slotsKeys (l : List (Nat × Nat)) : List Nat := l.map Prod.fst

/-- Value lookup of one slot in an account's entry list (the first entry
with that slot key, as a dup cursor would find it). -/
def slotsLookup (l : List (Nat × Nat)) (slot : Nat) : Option Nat :=
  (l.find? (fun e => decide (e.1 = slot))).map Prod.snd

/-- One slot delta (reth.rs lines 84-96): seek the entry with this exact
slot key and delete it when present (eraseP removes the first matching
entry, which is what delete_current does after the exact-match check on
seek_by_key_subkey), then upsert the new entry only when its value is
non-zero. -/
def processSlot (l : List (Nat × Nat)) (e : Nat × Nat) : List (Nat × Nat) :=
  let l' := l.eraseP (fun x => decide (x.1 = e.1))
  if e.2 ≠ 0 then (e.1, e.2) :: l' else l'

/-- Sort slot deltas by hashed slot key (storage_slots_sorted). -/
def sortSlots (l : List (Nat × Nat)) : List (Nat × Nat) :=
  sortBy (fun a b => decide (a.1 ≤ b.1)) l

/-- The storage loop body for one account (reth.rs lines 79-97): when the
delta is wiped and the account has any existing entry
(seek_exact(hashed_address).is_some()), delete every entry of the account
(delete_current_duplicates), then fold the slot deltas in hashed slot
order over the result. -/
def processAccountStorage (sto : HashedStorage) (l : List (Nat × Nat)) : List (Nat × Nat) :=
  let l0 := if sto.wiped && !l.isEmpty then [] else l
  (sortSlots sto.slots).foldl processSlot l0

/-- Sort the per-account storage deltas by hashed address
(sorted_by_key over account_storages). -/
def sortStorages (l : List (Nat × HashedStorage)) : List (Nat × HashedStorage) :=
  sortBy (fun a b => decide (a.1 ≤ b.1)) l

/-- Sort the account deltas by hashed address (accounts_sorted). -/
def sortAccounts (l : List (Nat × Option Account)) : List (Nat × Option Account) :=
  sortBy (fun a b => decide (a.1 ≤ b.1)) l

/-- The account loop body of write_hashed_state (reth.rs lines 67-72): a
delta carrying a record is upserted; a tombstone deletes the existing
record when present (and a tombstone over an absent record is a no-op,
which coincides with mapping the address to None). -/
def applyAccountDelta (t : AccountsTable) (e : Nat × Option Account) : AccountsTable :=
  match e.2 with
  | some a => fun k => if k = e.1 then some a else t k
  | none => fun k => if k = e.1 then none else t k

/-- The storage loop body of write_hashed_state: every cursor operation
of one iteration targets that iteration's hashed address. -/
def applyStorageDelta (t : StorageTable) (e : Nat × HashedStorage) : StorageTable :=
  fun a => if a = e.1 then processAccountStorage e.2 (t e.1) else t a

/-- UpdateWriter::write_hashed_state (reth.rs lines 64-99): apply the
sorted account deltas to the HashedAccounts table, then the storage
deltas, in hashed address order, to the HashedStorages table. -/
def write_hashed_state (hs : HashedPostStateSorted) (accT : AccountsTable)
    (stoT : StorageTable) : AccountsTable × StorageTable :=
  ((sortAccounts hs.accounts).foldl applyAccountDelta accT,
   (sortStorages hs.storages).foldl applyStorageDelta stoT)

lemma foldl_applyStorageDelta_no_key (a : Nat) :
    ∀ (l : List (Nat × HashedStorage)) (t : StorageTable), (∀ e ∈ l, e.1 ≠ a) →
      (l.foldl applyStorageDelta t) a = t a := by
  intro l
  induction l with
  | nil => intro t _; rfl
  | cons e l ih =>
    intro t h
    simp only [List.foldl_cons]
    rw [ih _ (fun e' he' => h e' (List.mem_cons_of_mem e he'))]
    have hne : a ≠ e.1 := fun hh => h e (List.mem_cons_self e l) hh.symm
    simp [applyStorageDelta, hne]

lemma foldl_applyStorageDelta_unique (a : Nat) (sto : HashedStorage) :
    ∀ (l : List (Nat × HashedStorage)) (t : StorageTable),
      (l.map Prod.fst).Nodup → (a, sto) ∈ l →
      (l.foldl applyStorageDelta t) a = processAccountStorage sto (t a) := by
  intro l
  induction l with
  | nil => intro t _ hm; cases hm
  | cons e l ih =>
    intro t hnd hm
    rw [List.map_cons, List.nodup_cons] at hnd
    obtain ⟨hni, hnd'⟩ := hnd
    simp only [List.foldl_cons]
    by_cases hea : e.1 = a
    · have hes : e = (a, sto) := by
        rcases List.mem_cons.mp hm with hh | ht
        · rw [hh]
        · exfalso
          apply hni
          rw [hea]
          exact List.mem_map_of_mem Prod.fst ht
      subst hes
      have hrest : ∀ e' ∈ l, e'.1 ≠ a := by
        intro e' he' h1
        apply hni
        show a ∈ List.map Prod.fst l
        rw [← h1]
        exact List.mem_map_of_mem Prod.fst he'
      rw [foldl_applyStorageDelta_no_key a l _ hrest]
      simp [applyStorageDelta]
    · have hm' : (a, sto) ∈ l := by
        rcases List.mem_cons.mp hm with hh | ht
        · exfalso; apply hea; rw [← hh]
        · exact ht
      rw [ih _ hnd' hm']
      have hne : a ≠ e.1 := fun hh => hea hh.symm
      simp [applyStorageDelta, hne]

lemma slotsLookup_eq_none (l : List (Nat × Nat)) (s : Nat) :
    slotsLookup l s = none ↔ s ∉ slotsKeys l := by
  simp only [slotsLookup, Option.map_eq_none', List.find?_eq_none,
    decide_eq_true_eq, slotsKeys, List.mem_map]
  constructor
  · rintro h ⟨x, hx, hxs⟩
    exact h x hx hxs
  · intro h x hx hxs
    exact h ⟨x, hx, hxs⟩

lemma not_mem_keys_eraseP (l : List (Nat × Nat)) (s : Nat)
    (hnd : (slotsKeys l).Nodup) :
    s ∉ slotsKeys (l.eraseP (fun x => decide (x.1 = s))) := by
  induction l with
  | nil => simp [slotsKeys]
  | cons e l ih =>
    simp only [slotsKeys, List.map_cons, List.nodup_cons] at hnd
    obtain ⟨hni, hnd'⟩ := hnd
    by_cases he : e.1 = s
    · rw [List.eraseP_cons_of_pos (p := fun x => decide (x.1 = s)) (l := l) (by simpa using he)]
      rw [he] at hni
      exact hni
    · rw [List.eraseP_cons_of_neg (p := fun x => decide (x.1 = s)) (l := l) (by simpa using he)]
      simp only [slotsKeys, List.map_cons, List.mem_cons]
      rintro (h1 | h2)
      · exact he h1.symm
      · exact ih hnd' h2

lemma keys_eraseP_not_mem (l : List (Nat × Nat)) (p : Nat × Nat → Bool) (s : Nat)
    (h : s ∉ slotsKeys l) : s ∉ slotsKeys (l.eraseP p) := by
  intro hm
  exact h (((List.eraseP_sublist l).map Prod.fst).subset hm)

lemma processSlot_nodup (l : List (Nat × Nat)) (e : Nat × Nat)
    (hnd : (slotsKeys l).Nodup) : (slotsKeys (processSlot l e)).Nodup := by
  have h1 : (slotsKeys (l.eraseP (fun x => decide (x.1 = e.1)))).Nodup :=
    hnd.sublist ((List.eraseP_sublist l).map Prod.fst)
  unfold processSlot
  by_cases hz : e.2 ≠ 0
  · rw [if_pos hz]
    simp only [slotsKeys, List.map_cons, List.nodup_cons]
    exact ⟨not_mem_keys_eraseP l e.1 hnd, h1⟩
  · rw [if_neg hz]
    exact h1

lemma processSlot_preserves_not_mem (l : List (Nat × Nat)) (e : Nat × Nat) (s : Nat)
    (hne : e.1 ≠ s) (h : s ∉ slotsKeys l) : s ∉ slotsKeys (processSlot l e) := by
  have h1 : s ∉ slotsKeys (l.eraseP (fun x => decide (x.1 = e.1))) :=
    keys_eraseP_not_mem l _ s h
  unfold processSlot
  by_cases hz : e.2 ≠ 0
  · rw [if_pos hz]
    simp only [slotsKeys, List.map_cons, List.mem_cons]
    rintro (h2 | h3)
    · exact hne h2.symm
    · exact h1 h3
  · rw [if_neg hz]
    exact h1

lemma slotsFold_preserves_not_mem (s : Nat) :
    ∀ (ds : List (Nat × Nat)) (l : List (Nat × Nat)),
      (∀ e ∈ ds, e.1 ≠ s) → s ∉ slotsKeys l →
      s ∉ slotsKeys (ds.foldl processSlot l) := by
  intro ds
  induction ds with
  | nil => intro l _ h; exact h
  | cons e ds ih =>
    intro l hds h
    simp only [List.foldl_cons]
    exact ih _ (fun e' he' => hds e' (List.mem_cons_of_mem e he'))
      (processSlot_preserves_not_mem l e s (hds e (List.mem_cons_self e ds)) h)

lemma slotsFold_zero (s : Nat) :
    ∀ (ds : List (Nat × Nat)) (l : List (Nat × Nat)),
      (slotsKeys l).Nodup → (slotsKeys ds).Nodup → (s, 0) ∈ ds →
      s ∉ slotsKeys (ds.foldl processSlot l) := by
  intro ds
  induction ds with
  | nil => intro l _ _ hm; cases hm
  | cons e ds ih =>
    intro l hl hnd hm
    simp only [slotsKeys, List.map_cons, List.nodup_cons] at hnd
    obtain ⟨hni, hnd'⟩ := hnd
    simp only [List.foldl_cons]
    by_cases hes : e.1 = s
    · have he : e = (s, 0) := by
        rcases List.mem_cons.mp hm with hh | ht
        · rw [hh]
        · exfalso
          apply hni
          rw [hes]
          exact List.mem_map_of_mem Prod.fst ht
      subst he
      have hds : ∀ e' ∈ ds, e'.1 ≠ s := by
        intro e' he' h1
        apply hni
        show s ∈ List.map Prod.fst ds
        rw [← h1]
        exact List.mem_map_of_mem Prod.fst he'
      refine slotsFold_preserves_not_mem s ds _ hds ?_
      show s ∉ slotsKeys (processSlot l (s, 0))
      have hps : processSlot l (s, 0) = l.eraseP (fun x => decide (x.1 = s)) := by
        unfold processSlot
        simp
      rw [hps]
      exact not_mem_keys_eraseP l s hl
    · have hm' : (s, 0) ∈ ds := by
        rcases List.mem_cons.mp hm with hh | ht
        · exfalso; apply hes; rw [← hh]
        · exact ht
      exact ih _ (processSlot_nodup l e hl) hnd' hm'

/-- C3: an account storage delta marked wiped first deletes every
existing storage entry of the account and only then applies the slot
deltas; wiping account a and writing slot S to a non-zero value v in the
same batch leaves exactly slot S (with value v) present for a, and no
previously existing slot of a present. -/
theorem write_hashed_state_wipe_then_write (hs : HashedPostStateSorted)
    (accT : AccountsTable) (stoT : StorageTable) (a S v : Nat)
    (hnd : (hs.storages.map Prod.fst).Nodup)
    (hmem : (a, ⟨true, [(S, v)]⟩) ∈ hs.storages)
    (hv : v ≠ 0) :
    ∀ slot, slotsLookup ((write_hashed_state hs accT stoT).2 a) slot
      = if slot = S then some v else none := by
  intro slot
  have hperm := sortBy_perm (fun (x y : Nat × HashedStorage) => decide (x.1 ≤ y.1)) hs.storages
  have hnd' : ((sortStorages hs.storages).map Prod.fst).Nodup :=
    ((hperm.map Prod.fst).nodup_iff).mpr hnd
  have hmem' : (a, (⟨true, [(S, v)]⟩ : HashedStorage)) ∈ sortStorages hs.storages :=
    hperm.mem_iff.mpr hmem
  show slotsLookup ((sortStorages hs.storages).foldl applyStorageDelta stoT a) slot = _
  rw [foldl_applyStorageDelta_unique a _ _ _ hnd' hmem']
  unfold processAccountStorage
  have hl0 : (if (⟨true, [(S, v)]⟩ : HashedStorage).wiped && !(stoT a).isEmpty
      then ([] : List (Nat × Nat)) else stoT a) = ([] : List (Nat × Nat)) := by
    cases h : stoT a with
    | nil => simp [h]
    | cons x xs => simp [h]
  rw [hl0]
  show slotsLookup ((sortSlots [(S, v)]).foldl processSlot []) slot = _
  have hsort : sortSlots [(S, v)] = [(S, v)] := rfl
  rw [hsort]
  simp only [List.foldl_cons, List.foldl_nil]
  unfold processSlot
  rw [if_pos (by simpa using hv)]
  simp only [List.eraseP_nil]
  by_cases hsS : slot = S
  · simp [slotsLookup, hsS]
  · simp only [slotsLookup, List.find?_cons]
    rw [if_neg hsS]
    have : (decide ((S, v).1 = slot)) = false := by
      simp only [decide_eq_false_iff_not]
      exact fun hh => hsS hh.symm
    rw [this]
    rfl

/-- Witness for the C3 theorem: account 1 is wiped and slot 2 written to
9 while the store previously held slot 3; afterwards slot 2 reads 9 and
slot 3 is gone. -/
theorem write_hashed_state_wipe_then_write_witness :
    slotsLookup ((write_hashed_state ⟨[], [(1, ⟨true, [(2, 9)]⟩)]⟩ (fun _ => none)
      (fun a => if a = 1 then [(3, 4)] else [])).2 1) 2 = some 9
    ∧ slotsLookup ((write_hashed_state ⟨[], [(1, ⟨true, [(2, 9)]⟩)]⟩ (fun _ => none)
      (fun a => if a = 1 then [(3, 4)] else [])).2 1) 3 = none := by
  have h := write_hashed_state_wipe_then_write ⟨[], [(1, ⟨true, [(2, 9)]⟩)]⟩
    (fun _ => none) (fun a => if a = 1 then [(3, 4)] else []) 1 2 9
    (by decide) (by decide) (by decide)
  exact ⟨(h 2).trans (by decide), (h 3).trans (by decide)⟩

/-- C4: for a processed storage-slot delta with value exactly zero, the
hashed-state writer deletes any existing entry at that slot and upserts
nothing, so after the write the slot is absent from the persistent
storage table (zero is represented by absence, never stored). -/
theorem write_hashed_state_zero_value_absent (hs : HashedPostStateSorted)
    (accT : AccountsTable) (stoT : StorageTable) (a S : Nat) (sto : HashedStorage)
    (hndA : (hs.storages.map Prod.fst).Nodup)
    (hmem : (a, sto) ∈ hs.storages)
    (hndS : (slotsKeys sto.slots).Nodup)
    (hT : (slotsKeys (stoT a)).Nodup)
    (hS : (S, 0) ∈ sto.slots) :
    slotsLookup ((write_hashed_state hs accT stoT).2 a) S = none := by
  have hperm := sortBy_perm (fun (x y : Nat × HashedStorage) => decide (x.1 ≤ y.1)) hs.storages
  have hnd' : ((sortStorages hs.storages).map Prod.fst).Nodup :=
    ((hperm.map Prod.fst).nodup_iff).mpr hndA
  have hmem' : (a, sto) ∈ sortStorages hs.storages := hperm.mem_iff.mpr hmem
  show slotsLookup ((sortStorages hs.storages).foldl applyStorageDelta stoT a) S = none
  rw [foldl_applyStorageDelta_unique a _ _ _ hnd' hmem']
  apply (slotsLookup_eq_none _ _).mpr
  unfold processAccountStorage
  have hpermS := sortBy_perm (fun (x y : Nat × Nat) => decide (x.1 ≤ y.1)) sto.slots
  have hndS' : (slotsKeys (sortSlots sto.slots)).Nodup :=
    ((hpermS.map Prod.fst).nodup_iff).mpr hndS
  have hS' : (S, 0) ∈ sortSlots sto.slots := hpermS.mem_iff.mpr hS
  refine slotsFold_zero S (sortSlots sto.slots) _ ?_ hndS' hS'
  by_cases hw : sto.wiped && !(stoT a).isEmpty
  · rw [if_pos hw]
    simp [slotsKeys]
  · rw [if_neg hw]
    exact hT

/-- Witness for the C4 theorem: the store holds slot 2 = 5 for account 1
and the delta writes slot 2 to zero; afterwards slot 2 is absent. -/
theorem write_hashed_state_zero_value_absent_witness :
    slotsLookup ((write_hashed_state ⟨[], [(1, ⟨false, [(2, 0)]⟩)]⟩ (fun _ => none)
      (fun a => if a = 1 then [(2, 5)] else [])).2 1) 2 = none :=
  write_hashed_state_zero_value_absent ⟨[], [(1, ⟨false, [(2, 0)]⟩)]⟩
    (fun _ => none) (fun a => if a = 1 then [(2, 5)] else []) 1 2 ⟨false, [(2, 0)]⟩
    (by decide) (by decide) (by decide) (by decide) (by decide)

/-! The read-through transaction (RethTx). -/

/-- An application-level key (the byte slice handed to read/write/note_read). -/
abbrev Key := List Nat

/-- The state of one RethTx together with the persistent store view its
cursor ranges over: memory is HashedPostState.accounts (hashed key to
pending account, None = tombstone); reads is the HashSet of hashed keys
observed via note_read; persistent is the durable HashedAccounts table
backing the read-only cursor, an ordered list of (hashed key, account). -/
structure TxSys where
  memory : List (Nat × Option Account)
  reads : List Nat
  persistent : List (Nat × Account)
deriving DecidableEq

/-- HashMap::get on the overlay accounts map (first binding wins; insert
is modelled as cons, so the newest binding is found first). -/
def memLookup (m : List (Nat × Option Account)) (k : Nat) : Option (Option Account) :=
  (m.find? (fun e => decide (e.1 = k))).map Prod.snd

/-- HashedCursor::seek on the ordered persistent table: the first entry
whose key is at or after the target. -/
def cursorSeek (l : List (Nat × Account)) (k : Nat) : Option (Nat × Account) :=
  l.find? (fun e => decide (k ≤ e.1))

/-- The low 8 bytes of the 32-byte big-endian balance
(balance_vec[balance_vec.len()-8..]). -/
def truncBalance (b : Nat) : Nat := b % 2 ^ 64

/-- RethTx::read, the returned value (reth.rs lines 158-178): hash the
key; if the overlay holds a present (non-tombstone) account return its
truncated balance; otherwise — including when the overlay holds a
tombstone — seek the persistent cursor and return the truncated balance
when the found key matches exactly, None otherwise. -/
def txReadValue (h : Key → Nat) (sys : TxSys) (key : Key) : Option Nat :=
  match memLookup sys.memory (h key) with
  | some (some acc) => some (truncBalance acc.balance)
  | _ =>
    match cursorSeek sys.persistent (h key) with
    | some (k, account) => if k = h key then some (truncBalance account.balance) else none
    | none => none

/-- RethTx::read: the value of txReadValue, and the transaction state,
which read never mutates. -/
def txRead (h : Key → Nat) (sys : TxSys) (key : Key) : Option Nat × TxSys :=
  (txReadValue h sys key, sys)

/-- Whether the read falls through to the persistent cursor: the seek in
RethTx::read runs exactly when the overlay early-return (a present
account in memory) does not fire. -/
def txReadSeeksPersistent (h : Key → Nat) (sys : TxSys) (key : Key) : Bool :=
  match memLookup sys.memory (h key) with
  | some (some _) => false
  | _ => true

/-- RethTx::note_read (reth.rs lines 180-182): insert the key's hash into
the reads set; the observed value argument is ignored. -/
def txNoteRead (h : Key → Nat) (sys : TxSys) (key : Key) (_value : Option Nat) : TxSys :=
  { sys with reads := sys.reads.insert (h key) }

/-- RethTx::write (reth.rs lines 184-198): a supplied value becomes an
account with nonce 1, no code hash and the value as balance; an absent
value becomes a tombstone; the overlay entry for the hashed key is
overwritten unconditionally (HashMap::insert, modelled as cons with
first-match lookup). -/
def txWrite (h : Key → Nat) (sys : TxSys) (key : Key) (value : Option Nat) : TxSys :=
  let acc : Option Account :=
    match value with
    | some v => some { nonce := 1, bytecode_hash := none, balance := v }
    | none => none
  { sys with memory := (h key, acc) :: sys.memory }

/-- C1 counterexample base state: the persistent store holds an account
with balance 7 under hashed key 5 and the overlay is empty. -/
def sysTombBase : TxSys := ⟨[], [], [(5, ⟨1, none, 7⟩)]⟩

/-- The constant hash used by the C1 counterexample. -/
def hTomb : Key → Nat := fun _ => 5

/-- C1 is false as stated: after writing a tombstone for a key, the
overlay contains the tombstone entry, yet read returns the persistent
store's value 7 for that key instead of the overlay's "not found" —
the tombstone does not shadow the persistent store. -/
theorem read_after_tombstone_write_cex :
    memLookup (txWrite hTomb sysTombBase [0] none).memory 5 = some none
    ∧ (txRead hTomb (txWrite hTomb sysTombBase [0] none) [0]).1 = some 7 := by
  constructor
  · rfl
  · rfl

/-- C1 (amended): a present (non-tombstone) overlay entry determines the
read result (the persistent store cannot affect it); a tombstone overlay
entry does not shadow the persistent store — read returns the persistent
cursor's verdict for the hashed key; and a key written with a value v
that fits in 8 bytes and then read in the same transaction yields exactly
v (larger balances are truncated to their low 8 bytes). -/
theorem txRead_overlay_semantics (h : Key → Nat) (sys : TxSys) (key : Key)
    (acc : Account) (v : Nat) :
    (txRead h ⟨(h key, some acc) :: sys.memory, sys.reads, sys.persistent⟩ key).1
      = some (truncBalance acc.balance)
    ∧ (txRead h ⟨(h key, none) :: sys.memory, sys.reads, sys.persistent⟩ key).1
      = ((cursorSeek sys.persistent (h key)).bind
          (fun e => if e.1 = h key then some (truncBalance e.2.balance) else none))
    ∧ (v < 2 ^ 64 → (txRead h (txWrite h sys key (some v)) key).1 = some v) := by
  refine ⟨?_, ?_, ?_⟩
  · simp [txRead, txReadValue, memLookup]
  · show txReadValue h ⟨(h key, none) :: sys.memory, sys.reads, sys.persistent⟩ key = _
    unfold txReadValue
    rw [show memLookup (⟨(h key, none) :: sys.memory, sys.reads,
        sys.persistent⟩ : TxSys).memory (h key) = some none by simp [memLookup]]
    cases hseek : cursorSeek (⟨(h key, none) :: sys.memory, sys.reads,
        sys.persistent⟩ : TxSys).persistent (h key) with
    | none => rfl
    | some e =>
      rcases e with ⟨k, account⟩
      by_cases hk : k = h key <;> simp [hk]
  · intro hv
    have hval : (txRead h (txWrite h sys key (some v)) key).1
        = some (truncBalance v) := by
      simp [txRead, txReadValue, txWrite, memLookup]
    rw [hval, truncBalance, Nat.mod_eq_of_lt hv]

/-- Witness for the amended C1 theorem: with a constant hash, an overlay
account with balance 3 is returned as 3, and writing 3 then reading
yields 3. -/
theorem txRead_overlay_semantics_witness :
    (txRead (fun _ => 2) ⟨[((fun _ => 2) [7], some ⟨1, none, 3⟩)], [], []⟩ [7]).1
      = some (truncBalance 3)
    ∧ (3 : Nat) < 2 ^ 64
    ∧ (txRead (fun _ => 2) (txWrite (fun _ => 2) ⟨[], [], []⟩ [7] (some 3)) [7]).1 = some 3 :=
  ⟨(txRead_overlay_semantics (fun _ => 2) ⟨[], [], []⟩ [7] ⟨1, none, 3⟩ 3).1,
   by decide,
   (txRead_overlay_semantics (fun _ => 2) ⟨[], [], []⟩ [7] ⟨1, none, 3⟩ 3).2.2 (by decide)⟩

/-- C7 counterexample: with an empty overlay, read does access the
persistent store — the cursor seek in RethTx::read is executed because
the overlay early-return does not fire, and the returned value comes from
the persistent store — so the transaction's operations are not
"unaccessed" with respect to the persistent store. -/
theorem txRead_consults_persistent_cex :
    txReadSeeksPersistent (fun _ => 0) ⟨[], [], [(0, ⟨1, none, 4⟩)]⟩ [] = true
    ∧ (txRead (fun _ => 0) ⟨[], [], [(0, ⟨1, none, 4⟩)]⟩ []).1 = some 4 := by
  constructor
  · rfl
  · rfl

/-- C7 (amended): no transaction operation mutates the persistent store —
read leaves the whole transaction system unchanged, and write and
note_read change only the overlay and the read set — but read does
perform a read-only seek on the persistent cursor whenever the overlay
lacks a present entry for the key's hash. -/
theorem tx_ops_never_mutate_persistent (h : Key → Nat) (sys : TxSys) (key : Key)
    (v w : Option Nat) :
    (txRead h sys key).2 = sys
    ∧ (txWrite h sys key v).persistent = sys.persistent
    ∧ (txNoteRead h sys key w).persistent = sys.persistent
    ∧ txReadSeeksPersistent h sys key
        = !(match memLookup sys.memory (h key) with
            | some (some _) => true
            | _ => false) := by
  refine ⟨rfl, rfl, rfl, ?_⟩
  unfold txReadSeeksPersistent
  cases hmem : memLookup sys.memory (h key) with
  | none => rfl
  | some o => cases o <;> rfl

/-- C10: note_read ignores its observed-value argument, is idempotent per
key (the reads set insert is a no-op when the hash is already present),
and touches neither the overlay nor the persistent store. -/
theorem txNoteRead_value_insensitive_idempotent (h : Key → Nat) (sys : TxSys)
    (key : Key) (v1 v2 : Option Nat) :
    txNoteRead h sys key v1 = txNoteRead h sys key v2
    ∧ txNoteRead h (txNoteRead h sys key v1) key v2 = txNoteRead h sys key v1
    ∧ (txNoteRead h sys key v1).memory = sys.memory
    ∧ (txNoteRead h sys key v1).persistent = sys.persistent := by
  refine ⟨rfl, ?_, rfl, rfl⟩
  show ({ sys with reads := (sys.reads.insert (h key)).insert (h key) } : TxSys)
      = { sys with reads := sys.reads.insert (h key) }
  rw [List.insert_of_mem (List.mem_insert_self (h key) sys.reads)]

/-! The commit-and-prove pipeline (RethDB::execute). -/

/-- The observable outcome of one execute run: either the workload step
completes (the process keeps running), or an unwrap aborts the run with a
fatal error code. -/
inductive ExecOutcome where
  | completed : ExecOutcome
  | fatal : Nat → ExecOutcome
deriving DecidableEq

/-- The error-handling skeleton of RethDB::execute after the workload
step (reth.rs lines 136-146): the state-root computation is unwrapped (a
failure is fatal), the durable commit is unwrapped (a failure is fatal),
and the multiproof result is bound to the wildcard — an Err from
proof.multiproof(targets) is discarded and the run completes anyway.
The store-cursor operations inside the writers, which the code also
unwraps, are total in this model. -/
def executeCommitAndProve (rootRes : Except Nat (Nat × TrieUpdates))
    (commitRes : Except Nat Unit) (proofRes : Except Nat Nat) : ExecOutcome :=
  match rootRes with
  | .error e => .fatal e
  | .ok _ =>
    match commitRes with
    | .error e => .fatal e
    | .ok _ =>
      match proofRes with
      | .error _ => .completed
      | .ok _ => .completed

/-- C6 is false as stated: with the state root and the durable commit
succeeding and the multiproof failing (error code 3), execute completes
normally — the failure is silently discarded, not a fatal error for the
run. -/
theorem multiproof_error_discarded_cex :
    executeCommitAndProve (.ok (0, ⟨[], []⟩)) (.ok ()) (.error 3) = .completed
    ∧ ExecOutcome.completed ≠ ExecOutcome.fatal 3 := by
  constructor
  · rfl
  · decide

/-- C6 (amended): once the durable commit has succeeded, the outcome of
multiproof construction — success or failure alike — is discarded and
the benchmark run completes normally; state-root and commit failures, by
contrast, are fatal. -/
theorem multiproof_failure_ignored (r : Nat × TrieUpdates) (pr : Except Nat Nat)
    (e1 e2 : Nat) :
    executeCommitAndProve (.ok r) (.ok ()) pr = .completed
    ∧ executeCommitAndProve (.error e1) (.ok ()) pr = .fatal e1
    ∧ executeCommitAndProve (.ok r) (.error e2) pr = .fatal e2 := by
  refine ⟨?_, rfl, rfl⟩
  cases pr <;> rfl

end RethBench
